import Mathlib

/-!
Verification of the wrapped-line index of this repository.

The development shallowly embeds the two source files:

* `src/textual/document/_wrapped_document.py` (`WrappedDocument`: `wrap`,
  `wrap_range`, `offset_to_location`, `location_to_offset`,
  `get_target_document_column`, `get_sections`, `get_offsets`, `height`);
* `src/textual/_wrap.py` (`chunks`, `divide_line`).

Python strings are embedded as `List Char` (Python indexes by codepoint),
documents as lists of lines, and the three parallel indexes of
`WrappedDocument` as plain lists.  Fallible operations (Python `IndexError` /
`ValueError`) are embedded with `Option`.  Helper functions of the repository
that are not part of the given sources (`cell_len`, `expand_tabs_inline`,
`get_tab_widths`, `cell_width_to_column_index`, `clamp`, `Text.divide`,
`chop_cells`) are modelled from the specification; each such definition is
marked `Modelled from the spec:` in its doc comment.

`WrappedDocument.wrap` and `WrappedDocument.wrap_range` invoke an external
line breaker (`from rich._wrap import divide_line`, called as
`divide_line(line, width)`); the embedding is parametric in that breaker
(`brk : Line → Nat → List Nat`), which both `wrap` and `wrap_range` share,
exactly as both call the one imported function in the source.
-/

namespace TextualSpec

abbrev Line := List Char
abbrev Doc := List Line

/-- Modelled from the spec: clamp a value into the inclusive interval
`[minimum, maximum]` (`textual.geometry.clamp`, not part of the given
sources). -/
def clamp (value minimum maximum : Int) : Int :=
  if value < minimum then minimum
  else if value > maximum then maximum
  else value

/-- Python sequence index semantics: a negative index counts from the end of
the sequence. -/
def pyIndex (n : Nat) (i : Int) : Nat :=
  if i < 0 then ((n : Int) + i).toNat else i.toNat

/-- Python `xs[i]` with a default for an out-of-range index (used only where
the source index is in range for the states our theorems consider). -/
def pyGetD {α : Type} (xs : List α) (i : Int) (d : α) : α :=
  xs.getD (pyIndex xs.length i) d

/-- Python slice `xs[:i]`, including negative-`i` semantics. -/
def pyTake {α : Type} (xs : List α) (i : Int) : List α :=
  xs.take (pyIndex xs.length i)

/-- Python slice `text[a:b]` for non-negative bounds. -/
def sliceFT (line : Line) (a b : Nat) : Line :=
  (line.take b).drop a

/-- Modelled from the spec: per-character display width — 0 for combining
marks, 2 for wide/fullwidth characters, 1 otherwise (`cell_len`'s character
classifier; `textual._cells` is not part of the given sources).  The ranges
cover the combining diacritical marks and the common wide CJK blocks. -/
def charWidth (c : Char) : Nat :=
  let v := c.toNat
  if 0x300 ≤ v ∧ v ≤ 0x36F then 0
  else if (0x1100 ≤ v ∧ v ≤ 0x115F) ∨ (0x2E80 ≤ v ∧ v ≤ 0x303E)
      ∨ (0x3041 ≤ v ∧ v ≤ 0x33FF) ∨ (0x3400 ≤ v ∧ v ≤ 0x4DBF)
      ∨ (0x4E00 ≤ v ∧ v ≤ 0x9FFF) ∨ (0xAC00 ≤ v ∧ v ≤ 0xD7A3)
      ∨ (0xF900 ≤ v ∧ v ≤ 0xFAFF) ∨ (0xFF00 ≤ v ∧ v ≤ 0xFF60)
      ∨ (0xFFE0 ≤ v ∧ v ≤ 0xFFE6) then 2
  else 1

/-- Modelled from the spec: `cell_len(text)` is the sum of per-character
display widths. -/
def cell_len (text : Line) : Nat :=
  (text.map charWidth).sum

/-- The cell width contributed by one character when it starts at cell column
`col`: a tab advances to the next tab stop
(`tab_size - (column_so_far % tab_size)`), every other character contributes
its `charWidth`.  This is the single stop rule shared (per the spec) by tab
expansion and the cell-width inverse mapping. -/
def stepW (tw : Nat) (col : Nat) (c : Char) : Nat :=
  if c = '\t' then tw - col % tw else charWidth c

/-- Modelled from the spec: `expand_tabs_inline` renders each tab as the
equivalent number of spaces using the tab-stop rule; `col` is the cell column
reached so far. -/
def expandTabsGo (tw : Nat) : Line → Nat → Line
  | [], _ => []
  | c :: rest, col =>
    if c = '\t' then
      let spaces := tw - col % tw
      List.replicate spaces ' ' ++ expandTabsGo tw rest (col + spaces)
    else
      c :: expandTabsGo tw rest (col + charWidth c)

/-- Modelled from the spec: `expand_tabs_inline(text, tab_width)`. -/
def expand_tabs_inline (text : Line) (tw : Nat) : Line :=
  expandTabsGo tw text 0

/-- Total cell width of `text` when it starts at cell column `col`, with tabs
expanded positionally. -/
def sumW (tw : Nat) : Line → Nat → Nat
  | [], _ => 0
  | c :: rest, col =>
    let w := stepW tw col c
    w + sumW tw rest (col + w)

/-- Modelled from the spec: the scanning loop of
`cell_width_to_column_index` — accumulate expanded cell widths until the
target is exceeded. -/
def cwtciGo (tw : Nat) : Line → Nat → Nat → Nat → Nat
  | [], _, _, idx => idx
  | c :: rest, cells, target, idx =>
    let w := stepW tw cells c
    if cells + w > target then idx
    else cwtciGo tw rest (cells + w) target (idx + 1)

/-- Modelled from the spec: `cell_width_to_column_index(text, target, tw)` is
the largest column index whose cumulative cell width (with tabs expanded)
does not exceed the target (`textual._cells` is not part of the given
sources). -/
def cell_width_to_column_index (text : Line) (target : Nat) (tw : Nat) : Nat :=
  cwtciGo tw text 0 target 0

/-- Modelled from the spec: `Text(line).divide(offsets)` — the pieces of
`line` between consecutive cut offsets (`rich.text.Text.divide`); `prev` is
the previous cut. -/
def divideGo (line : Line) (prev : Nat) : List Nat → List Line
  | [] => [line.drop prev]
  | o :: rest => sliceFT line prev o :: divideGo line o rest

/-- Split `line` at the given offsets; always returns `offsets.length + 1`
pieces. -/
def divideAt (line : Line) (offsets : List Nat) : List Line :=
  divideGo line 0 offsets

/-- Modelled from the spec: Python `bisect_right(xs, x)` on an ascending
list equals the number of elements that are `≤ x`. -/
def bisect_right (xs : List Nat) (x : Int) : Nat :=
  (xs.filter (fun o : Nat => decide ((o : Int) ≤ x))).length

/-! ## The wrapped-index state (`WrappedDocument`) -/

/-- `divide_line(line, width) if width else []` — the per-line wrap offsets
computed by `wrap` and `wrap_range`, parametric in the external breaker. -/
def wrapLine (brk : Line → Nat → List Nat) (width : Nat) (line : Line) : List Nat :=
  if width ≠ 0 then brk line width else []

/-- The row-to-line entries contributed by one document line: section offsets
`0..k` paired with the line index (`for section_y_offset in
range(len(wrap_offsets) + 1): offset_to_line_info.append((line_index,
section_y_offset))`). -/
def lineRows (i : Nat) (k : Nat) : List (Nat × Nat) :=
  (List.range (k + 1)).map (fun s => (i, s))

/-- The row-to-line map built from the per-line wrap-offset counts `ks`,
numbering document lines from `i` (the construction loop of `wrap` /
`wrap_range`). -/
def buildInfo : List Nat → Nat → List (Nat × Nat)
  | [], _ => []
  | k :: ks, i => lineRows i k ++ buildInfo ks (i + 1)

/-- The line-to-rows map built from the per-line wrap-offset counts `ks`,
numbering visual rows from `y` (the `current_offset` loop of `wrap` /
`wrap_range`). -/
def buildRowLists : List Nat → Nat → List (List Nat)
  | [], _ => []
  | k :: ks, y => List.range' y (k + 1) :: buildRowLists ks (y + k + 1)

/-- Total number of visual rows contributed by lines with wrap-offset counts
`ks`. -/
def heightSum (ks : List Nat) : Nat :=
  (ks.map (fun k => k + 1)).sum

/-- The three parallel indexes of `WrappedDocument`, plus the stored width. -/
structure WrappedState where
  wrap_offsets : List (List Nat)
  offset_to_line_info : List (Nat × Nat)
  line_index_to_offsets : List (List Nat)
  width : Nat
  deriving Repr, DecidableEq

/-- `WrappedDocument.wrap(width)`: rebuild all three indexes from scratch. -/
def wrap (brk : Line → Nat → List Nat) (doc : Doc) (width : Nat) : WrappedState :=
  let new_wrap_offsets := doc.map (wrapLine brk width)
  let ks := new_wrap_offsets.map List.length
  { wrap_offsets := new_wrap_offsets
    offset_to_line_info := buildInfo ks 0
    line_index_to_offsets := buildRowLists ks 0
    width := width }

/-- `WrappedDocument.height`: total visual row count, summed from the wrap
offsets. -/
def WrappedState.height (st : WrappedState) : Nat :=
  (st.wrap_offsets.map (fun offsets => offsets.length + 1)).sum

/-- `WrappedDocument.wrap_range(start, old_end, new_end)`: incremental
re-wrap after an edit.  `doc` is the already-edited document.  The
`((l : Int) + shift).toNat` conversions store the shifted Python ints back as
list indices; for every state our theorems consider the shifted values are
non-negative, so `toNat` is exact. -/
def wrap_range (brk : Line → Nat → List Nat) (st : WrappedState) (doc : Doc)
    (start old_end new_end : Int × Int) : WrappedState :=
  let old_max_index : Int := (st.line_index_to_offsets.length : Int) - 1
  let new_max_index : Int := (doc.length : Int) - 1
  let start_line_index := clamp start.1 0 (min old_max_index new_max_index)
  let old_end_line_index := clamp old_end.1 0 old_max_index
  let new_end_line_index := clamp new_end.1 0 new_max_index
  -- `sorted((start_line_index, old_end_line_index))`
  let top_line_index : Nat := (min start_line_index old_end_line_index).toNat
  let old_bottom_line_index : Nat := (max start_line_index old_end_line_index).toNat
  let new_bottom_line_index : Nat := (max start_line_index new_end_line_index).toNat
  -- `self._line_index_to_offsets[top_line_index][0]`; the inner list is
  -- non-empty in every consistent state (each line occupies ≥ 1 row).
  let top_y_offset := (st.line_index_to_offsets.getD top_line_index []).headD 0
  -- `self._line_index_to_offsets[old_bottom_line_index][-1]`
  let old_bottom_y_offset :=
    (st.line_index_to_offsets.getD old_bottom_line_index []).getLastD 0
  -- `self.document.lines[top_line_index : new_bottom_line_index + 1]`
  let new_lines := (doc.take (new_bottom_line_index + 1)).drop top_line_index
  let new_wrap_offsets := new_lines.map (wrapLine brk st.width)
  let ks := new_wrap_offsets.map List.length
  let new_offset_to_line_info := buildInfo ks top_line_index
  let new_line_index_to_offsets := buildRowLists ks top_y_offset
  -- the two splices (Python slice assignment)
  let info1 := st.offset_to_line_info.take top_y_offset
    ++ new_offset_to_line_info
    ++ st.offset_to_line_info.drop (old_bottom_y_offset + 1)
  let rows1 := st.line_index_to_offsets.take top_line_index
    ++ new_line_index_to_offsets
    ++ st.line_index_to_offsets.drop (old_bottom_line_index + 1)
  let old_height : Int := (old_bottom_y_offset : Int) - (top_y_offset : Int) + 1
  let new_height := new_offset_to_line_info.length
  let offset_shift : Int := (new_height : Int) - old_height
  let line_shift : Int := (new_bottom_line_index : Int) - (old_bottom_line_index : Int)
  -- `if line_shift:` — shift the line component of every row-to-line entry
  -- below the edit region.
  let info2 := if line_shift ≠ 0 then
      info1.take (top_y_offset + new_height)
        ++ (info1.drop (top_y_offset + new_height)).map
            (fun p => (((p.1 : Int) + line_shift).toNat, p.2))
    else info1
  -- `if offset_shift:` — shift every row number of lines below the edit
  -- region.
  let rows2 := if offset_shift ≠ 0 then
      rows1.take (top_line_index + new_lines.length)
        ++ (rows1.drop (top_line_index + new_lines.length)).map
            (List.map (fun o : Nat => ((o : Int) + offset_shift).toNat))
    else rows1
  let wo := st.wrap_offsets.take top_line_index
    ++ new_wrap_offsets
    ++ st.wrap_offsets.drop (old_bottom_line_index + 1)
  { wrap_offsets := wo
    offset_to_line_info := info2
    line_index_to_offsets := rows2
    width := st.width }

/-- `WrappedDocument.get_offsets(line_index)`: `none` embeds the
`ValueError` raised for an out-of-bounds line index. -/
def get_offsets (st : WrappedState) (line_index : Int) : Option (List Nat) :=
  if line_index < 0 ∨ (st.wrap_offsets.length : Int) ≤ line_index then none
  else some (pyGetD st.wrap_offsets line_index [])

/-- `WrappedDocument.get_sections(line_index)`: the wrapped sections of one
document line. -/
def get_sections (st : WrappedState) (doc : Doc) (line_index : Int) : List Line :=
  divideAt (pyGetD doc line_index []) (pyGetD st.wrap_offsets line_index [])

/-- `WrappedDocument.get_target_document_column(line_index, x_offset,
y_offset, tab_width)`.  `y_offset` supports Python negative indexing (`-1` is
the last section). -/
def get_target_document_column (st : WrappedState) (doc : Doc) (line_index : Int)
    (x_offset : Nat) (y_offset : Int) (tw : Nat) : Nat :=
  let sections := get_sections st doc line_index
  let target_section := pyGetD sections y_offset []
  let target_section_start := ((pyTake sections y_offset).map List.length).sum
  let target_column_index :=
    target_section_start + cell_width_to_column_index target_section x_offset tw
  if y_offset ≠ (sections.length : Int) - 1 ∧ y_offset ≠ -1 then
    min target_column_index (target_section_start + target_section.length - 1)
  else
    target_column_index

/-- `WrappedDocument.offset_to_location(offset, tab_width)`.  The source's
`except IndexError` for a too-large `y` falls back to the last entry; the
`offset_data is not None` test can never fail (the map stores tuples), so
that branch is unreachable and not modelled. -/
def offset_to_location (st : WrappedState) (doc : Doc) (offset : Int × Int)
    (tw : Nat) : Nat × Nat :=
  let x : Nat := offset.1.toNat  -- `x = max(0, x)`
  let y : Nat := offset.2.toNat  -- `y = max(0, y)`
  if st.width = 0 then
    let line_index := min y (st.wrap_offsets.length - 1)
    let column_index := min x (doc.getD line_index []).length
    (line_index, column_index)
  else
    let offset_data :=
      if y < st.offset_to_line_info.length then st.offset_to_line_info.getD y (0, 0)
      else st.offset_to_line_info.getLastD (0, 0)
    (offset_data.1,
      get_target_document_column st doc (offset_data.1 : Int) x (offset_data.2 : Int) tw)

/-- `WrappedDocument.location_to_offset(location, tab_width)`.  The source
clamps the line index to `len(self._line_index_to_offsets)` (not `len - 1`),
so a line index at or past the line count survives the clamp and
`get_offsets` raises `ValueError` — embedded as `none`. -/
def location_to_offset (st : WrappedState) (doc : Doc) (location : Int × Int)
    (tw : Nat) : Option (Nat × Nat) :=
  let line_index := clamp location.1 0 (st.line_index_to_offsets.length : Int)
  match get_offsets st line_index with
  | none => none
  | some wrap_offsets =>
    let section_start_columns := 0 :: wrap_offsets
    let section_index := bisect_right wrap_offsets location.2
    let y_offsets := pyGetD st.line_index_to_offsets line_index []
    let section_column_index : Int :=
      location.2 - (section_start_columns.getD section_index 0 : Int)
    -- `section` is a Lean keyword, hence the name `sect` here.
    let sect := (get_sections st doc line_index).getD section_index []
    let x_offset := cell_len (expand_tabs_inline (pyTake sect section_column_index) tw)
    some (x_offset, y_offsets.getD section_index 0)

/-! ## The line breaker (`textual._wrap`) -/

/-- Python's `\s` class, for the characters the chunking regex can meet
here. -/
def isSpace (c : Char) : Bool :=
  c == ' ' || c == '\t' || c == '\n' || c == '\r' || c == '\x0b' || c == '\x0c'

/-- `chunks(text)`: repeated matching of `\s*\S+\s*`, yielding
`(start, end, chunk)` triples.  Each match is anchored at the previous end,
so the chunks tile the text from position 0 up to the last match's end.  The
fuel only bounds the iteration count; `text.length + 1` suffices because
every chunk contains at least one (non-whitespace) character. -/
def chunksAux : Nat → Line → Nat → List (Nat × Nat × Line)
  | 0, _, _ => []
  | fuel + 1, rest, pos =>
    let ws1 := rest.takeWhile (fun c => isSpace c)
    let r1 := rest.dropWhile (fun c => isSpace c)
    let word := r1.takeWhile (fun c => !isSpace c)
    if word.isEmpty then []
    else
      let r2 := r1.dropWhile (fun c => !isSpace c)
      let ws2 := r2.takeWhile (fun c => isSpace c)
      let r3 := r2.dropWhile (fun c => isSpace c)
      let chunk := ws1 ++ word ++ ws2
      (pos, pos + chunk.length, chunk) :: chunksAux fuel r3 (pos + chunk.length)

/-- `chunks(text)` from `textual._wrap`. -/
def chunks (text : Line) : List (Nat × Nat × Line) :=
  chunksAux (text.length + 1) text 0

/-- Modelled from the spec: `get_tab_widths(text, tab_size)`
(`textual.expand_tabs` is not part of the given sources) — split the text at
tab characters and assign each tab the distance to the next tab stop
boundary.  Each section ends with its tab (the final section has none), so
the section lengths sum to the text length, matching the per-codepoint
cumulative table `divide_line` builds from this result.  The fuel bounds the
iteration count; `text.length + 1` suffices since every step consumes at
least the tab character. -/
def get_tab_widths_aux : Nat → Line → Nat → Nat → List (Line × Nat)
  | 0, _, _, _ => []
  | _, [], _, _ => []
  | fuel + 1, text, tab_size, col =>
    let pre := text.takeWhile (fun c => c != '\t')
    let rest := text.dropWhile (fun c => c != '\t')
    match rest with
    | [] => [(pre, 0)]
    | _ :: rest' =>
      let col1 := col + cell_len pre
      let w := tab_size - col1 % tab_size
      (pre ++ ['\t'], w) :: get_tab_widths_aux fuel rest' tab_size (col1 + w)

/-- Modelled from the spec: `get_tab_widths(text, tab_size)`. -/
def get_tab_widths (text : Line) (tab_size : Nat) : List (Line × Nat) :=
  get_tab_widths_aux (text.length + 1) text tab_size 0

/-- The `cumulative_widths` table of `divide_line`: for every codepoint
index, the total expanded width of the tabs strictly before it
(`cumulative_widths.extend([cumulative_width] * len(tab_section))`). -/
def cumulativeWidthsGo : List (Line × Nat) → Nat → List Nat
  | [], _ => []
  | (sec, w) :: rest, cum =>
    List.replicate sec.length cum ++ cumulativeWidthsGo rest (cum + w)

/-- The `cumulative_widths` table of `divide_line`. -/
def cumulativeWidths (tws : List (Line × Nat)) : List Nat :=
  cumulativeWidthsGo tws 0

/-- Modelled from the spec: `rich.cells.chop_cells(chunk, width)` — split a
chunk into width-sized pieces, cell-aware; every piece takes at least one
character and a further character is added only while the piece still fits
the width. -/
def chopGo (width : Nat) : Line → Line → Nat → List Line
  | [], cur, _ => [cur.reverse]
  | c :: rest, cur, curw =>
    let w := charWidth c
    if cur.isEmpty ∨ curw + w ≤ width then chopGo width rest (c :: cur) (curw + w)
    else cur.reverse :: chopGo width rest [c] w

/-- Modelled from the spec: `chop_cells(text, width)`. -/
def chop_cells (text : Line) (width : Nat) : List Line :=
  chopGo width text [] 0

/-- The `for last, line in loop_last(folded_word)` loop of `divide_line`'s
fold branch: emit a break before each piece while `start` is non-zero,
advance `start` by each non-final piece, and return the final piece's cell
width as the new `cell_offset`. -/
def foldPieces : List Line → Nat → List Nat → List Nat × Nat
  | [], _, breaks => (breaks, 0)
  | [piece], start, breaks =>
    ((if start ≠ 0 then breaks ++ [start] else breaks), cell_len piece)
  | piece :: rest, start, breaks =>
    foldPieces rest (start + piece.length) (if start ≠ 0 then breaks ++ [start] else breaks)

/-- The chunk loop of `divide_line`.  `none` embeds the `IndexError` raised
by `cumulative_widths[start]` / `cumulative_widths[end]` when an index is out
of range of the table.  (The `print` call in the source has no semantic
effect.) -/
def divideLoop (cum : List Nat) (width : Nat) (fold : Bool) :
    List (Nat × Nat × Line) → List Nat → Nat → Option (List Nat)
  | [], breaks, _ => some breaks
  | (start, stop, chunk) :: rest, breaks, cell_offset =>
    if start < cum.length ∧ stop < cum.length then
      let tab_width_before_start := cum.getD start 0
      let tab_width_before_stop := cum.getD stop 0
      let chunk_width := cell_len chunk + (tab_width_before_stop - tab_width_before_start)
      let remaining_space : Int := (width : Int) - (cell_offset : Int)
      if remaining_space ≥ (chunk_width : Int) then
        -- the chunk fits within the remaining width of this line
        divideLoop cum width fold rest breaks (cell_offset + chunk_width)
      else if chunk_width > width then
        if fold then
          let folded_word := chop_cells chunk width
          let res := foldPieces folded_word start breaks
          divideLoop cum width fold rest res.1 res.2
        else
          divideLoop cum width fold rest
            (if start ≠ 0 then breaks ++ [start] else breaks) chunk_width
      else if cell_offset ≠ 0 ∧ start ≠ 0 then
        divideLoop cum width fold rest (breaks ++ [start]) chunk_width
      else
        -- no branch of the source applies: the break list and the running
        -- offset are left unchanged
        divideLoop cum width fold rest breaks cell_offset
    else none

/-- `divide_line(text, width, tab_size, fold)` from `textual._wrap`. -/
def divide_line (text : Line) (width : Nat) (tab_size : Nat) (fold : Bool) :
    Option (List Nat) :=
  divideLoop (cumulativeWidths (get_tab_widths text tab_size)) width fold
    (chunks text) [] 0

/-! ## Edits

An edit that replaced the document span `[start, old_end)` (pre-edit
coordinates) with new content ending at `new_end` (post-edit coordinates),
described at the line level: `s`, `ob`, `nb` are the line components of
`start`, `old_end`, `new_end`.  Lines strictly above `s` are untouched, lines
strictly below `ob` reappear unchanged below `nb`, and the line counts differ
by `nb - ob`. -/
structure IsEdit (oldDoc newDoc : Doc) (s ob nb : Nat) : Prop where
  start_le_old : s ≤ ob
  start_le_new : s ≤ nb
  old_in : ob < oldDoc.length
  new_in : nb < newDoc.length
  count_eq : newDoc.length + ob = oldDoc.length + nb
  top_eq : newDoc.take s = oldDoc.take s
  bottom_eq : newDoc.drop (nb + 1) = oldDoc.drop (ob + 1)

/-- The states reachable by a full `wrap(width)` on construction followed by
any sequence of `wrap_range` calls for genuine edits; the document evolves
alongside. -/
inductive Reaches (brk : Line → Nat → List Nat) (width : Nat) : Doc → WrappedState → Prop
  | init (doc : Doc) : Reaches brk width doc (wrap brk doc width)
  | step {doc doc' : Doc} {st : WrappedState} {s ob nb : Nat} (c1 c2 c3 : Int) :
      Reaches brk width doc st → IsEdit doc doc' s ob nb →
      Reaches brk width doc'
        (wrap_range brk st doc' ((s : Int), c1) ((ob : Int), c2) ((nb : Int), c3))

/-- The data-model invariants of §3 of the specification: the row-to-line and
line-to-rows maps are exact inverses, all indexes have the document's line
count, and the total visual row count is the sum over lines of
`wrap offsets + 1`, i.e. the `height` property. -/
structure Consistent (doc : Doc) (st : WrappedState) : Prop where
  offsets_count : st.wrap_offsets.length = doc.length
  rows_count : st.line_index_to_offsets.length = doc.length
  info_lines : ∀ p ∈ st.offset_to_line_info, p.1 < doc.length
  row_to_line : ∀ (y : Nat) (p : Nat × Nat), st.offset_to_line_info[y]? = some p →
    ∃ rl, st.line_index_to_offsets[p.1]? = some rl ∧ rl[p.2]? = some y
  line_to_rows : ∀ (l sec y : Nat) (rl : List Nat),
    st.line_index_to_offsets[l]? = some rl →
    rl[sec]? = some y → st.offset_to_line_info[y]? = some (l, sec)
  total_rows : st.offset_to_line_info.length = st.height

/-- Spec §3: wrap offsets of one line are strictly increasing and lie in
`(0, len(line)]`. -/
def ValidBreaks (n : Nat) (offs : List Nat) : Prop :=
  List.Pairwise (· < ·) offs ∧ ∀ o ∈ offs, 0 < o ∧ o ≤ n

/-! ### Concrete fixtures used to instantiate the theorems -/

/-- A breaker that never wraps (e.g. `divide_line` on lines that fit). -/
def brkNil : Line → Nat → List Nat := fun _ _ => []

/-- A breaker that breaks every `w` characters. -/
def brkEvery (line : Line) (w : Nat) : List Nat :=
  ((List.range (line.length / w)).map (fun i => (i + 1) * w)).filter
    (fun o => o < line.length)

/-- `"a"` followed by a combining acute accent (width 0) and `"b"`. -/
def combLine : Line := ['a', Char.ofNat 0x301, 'b']

/-- A one-line document. -/
def docX : Doc := [['x']]

/-- A three-line document. -/
def docHello : Doc := ["hello world".data, "bb".data, "ccc".data]

/-- `docHello` after an edit replacing line 0 by two lines. -/
def docHello' : Doc := ["hel".data, "xx yy zz aa".data, "bb".data, "ccc".data]

/-- `docHello` after an in-place edit of line 1 (same line count). -/
def docHello'' : Doc := ["hello world".data, "bZ".data, "ccc".data]

/-- A one-line document wrapped at width 2 into sections `"ab"`, `"cd"`. -/
def docAbcd : Doc := ["abcd".data]

/-- A two-character line. -/
def lineAB : Line := "ab".data

/-- A one-character line. -/
def lineA : Line := "a".data

/-- Two short words. -/
def lineWords : Line := "ab cd".data

/-- Spec scenario 1's line. -/
def lineFear : Line := "I must not fear.".data

/-- A single 50-character word of 1-cell characters. -/
def lineWord50 : Line := List.replicate 50 'a' 

/-! ## Structure of the three indexes built by `wrap` -/

theorem heightSum_nil : heightSum [] = 0 := rfl

theorem heightSum_cons (k : Nat) (ks : List Nat) :
    heightSum (k :: ks) = k + 1 + heightSum ks := by
  simp [heightSum]

theorem heightSum_append (a b : List Nat) :
    heightSum (a ++ b) = heightSum a + heightSum b := by
  simp [heightSum]

theorem buildInfo_length (ks : List Nat) (i : Nat) :
    (buildInfo ks i).length = heightSum ks := by
  induction ks generalizing i with
  | nil => rfl
  | cons k ks ih => simp [buildInfo, lineRows, ih, heightSum_cons]

theorem buildRowLists_length (ks : List Nat) (y : Nat) :
    (buildRowLists ks y).length = ks.length := by
  induction ks generalizing y with
  | nil => rfl
  | cons k ks ih => simp [buildRowLists, ih]

theorem buildInfo_append (a b : List Nat) (i : Nat) :
    buildInfo (a ++ b) i = buildInfo a i ++ buildInfo b (i + a.length) := by
  induction a generalizing i with
  | nil => simp [buildInfo]
  | cons k ks ih =>
    simp only [List.cons_append, buildInfo, List.append_assoc, List.length_cons,
      List.append_eq]
    rw [ih, show i + 1 + ks.length = i + (ks.length + 1) from by omega]

theorem buildRowLists_append (a b : List Nat) (y : Nat) :
    buildRowLists (a ++ b) y = buildRowLists a y ++ buildRowLists b (y + heightSum a) := by
  induction a generalizing y with
  | nil => simp [buildRowLists, heightSum_nil]
  | cons k ks ih =>
    simp only [List.cons_append, buildRowLists, heightSum_cons, List.cons.injEq, true_and,
      List.append_eq]
    rw [ih, show y + k + 1 + heightSum ks = y + (k + 1 + heightSum ks) from by omega]

theorem buildInfo_shift (ks : List Nat) (i : Nat) (d : Int) (hd : 0 ≤ (i : Int) + d) :
    (buildInfo ks i).map (fun p => (((p.1 : Int) + d).toNat, p.2))
      = buildInfo ks ((i : Int) + d).toNat := by
  induction ks generalizing i with
  | nil => rfl
  | cons k ks ih =>
    have h1 : 0 ≤ ((i + 1 : Nat) : Int) + d := by push_cast; omega
    have h2 : (((i + 1 : Nat) : Int) + d).toNat = ((i : Int) + d).toNat + 1 := by omega
    simp only [buildInfo, List.map_append, ih (i + 1) h1, h2]
    congr 1
    simp [lineRows, List.map_map, Function.comp]

theorem range'_shift (y n : Nat) (d : Int) (hd : 0 ≤ (y : Int) + d) :
    (List.range' y n).map (fun o : Nat => ((o : Int) + d).toNat)
      = List.range' ((y : Int) + d).toNat n := by
  induction n generalizing y with
  | zero => rfl
  | succ n ih =>
    have h1 : 0 ≤ ((y + 1 : Nat) : Int) + d := by push_cast; omega
    have h2 : (((y + 1 : Nat) : Int) + d).toNat = ((y : Int) + d).toNat + 1 := by omega
    simp only [List.range'_succ, List.map_cons, ih (y + 1) h1, h2]

theorem buildRowLists_shift (ks : List Nat) (y : Nat) (d : Int) (hd : 0 ≤ (y : Int) + d) :
    (buildRowLists ks y).map (List.map (fun o : Nat => ((o : Int) + d).toNat))
      = buildRowLists ks ((y : Int) + d).toNat := by
  induction ks generalizing y with
  | nil => rfl
  | cons k ks ih =>
    have h1 : 0 ≤ ((y + k + 1 : Nat) : Int) + d := by push_cast; omega
    have h2 : (((y + k + 1 : Nat) : Int) + d).toNat = ((y : Int) + d).toNat + k + 1 := by
      omega
    simp only [buildRowLists, List.map_cons, ih (y + k + 1) h1, h2,
      range'_shift y (k + 1) d hd]

theorem buildRowLists_getD (ks : List Nat) (y l : Nat) (hl : l < ks.length) :
    (buildRowLists ks y).getD l []
      = List.range' (y + heightSum (ks.take l)) (ks.getD l 0 + 1) := by
  induction ks generalizing y l with
  | nil => simp at hl
  | cons k ks ih =>
    cases l with
    | zero => simp [buildRowLists, heightSum_nil]
    | succ l =>
      have hl' : l < ks.length := by simpa using hl
      simp only [buildRowLists, List.getD_cons_succ, List.take_succ_cons,
        heightSum_cons, ih (y + k + 1) l hl', List.getD_cons_succ]
      congr 1
      omega

theorem range'_headD (a n : Nat) : (List.range' a (n + 1)).headD 0 = a := by
  simp [List.range'_succ]

theorem range'_getLastD (a n : Nat) : (List.range' a (n + 1)).getLastD 0 = a + n := by
  simp [List.getLastD_eq_getLast?, List.getLast?_range']

theorem clamp_of_le {v lo hi : Int} (h1 : lo ≤ v) (h2 : v ≤ hi) : clamp v lo hi = v := by
  unfold clamp; split_ifs <;> omega

theorem heightSum_ge_length (ks : List Nat) : ks.length ≤ heightSum ks := by
  induction ks with
  | nil => simp [heightSum_nil]
  | cons k ks ih => rw [heightSum_cons]; simp; omega

theorem heightSum_take_succ (ks : List Nat) (n : Nat) (hn : n < ks.length) :
    heightSum (ks.take (n + 1)) = heightSum (ks.take n) + (ks.getD n 0 + 1) := by
  induction ks generalizing n with
  | nil => simp at hn
  | cons k ks ih =>
    cases n with
    | zero => simp [heightSum_cons, heightSum_nil]
    | succ n =>
      have hn' : n < ks.length := by simpa using hn
      simp only [List.take_succ_cons, heightSum_cons, ih n hn', List.getD_cons_succ]
      omega

theorem wrap_range_eq_wrap (brk : Line → Nat → List Nat) (width : Nat)
    {oldDoc newDoc : Doc} {s ob nb : Nat}
    (h : IsEdit oldDoc newDoc s ob nb) (c1 c2 c3 : Int) :
    wrap_range brk (wrap brk oldDoc width) newDoc ((s : Int), c1) ((ob : Int), c2)
        ((nb : Int), c3)
      = wrap brk newDoc width := by
  obtain ⟨hso, hsn, hob, hnb, hcount, htop, hbot⟩ := h
  simp only [wrap_range, wrap, buildRowLists_length, List.length_map]
  have e1 : clamp (s : Int) 0 (min ((oldDoc.length : Int) - 1) ((newDoc.length : Int) - 1))
      = (s : Int) := clamp_of_le (by omega) (by omega)
  have e2 : clamp (ob : Int) 0 ((oldDoc.length : Int) - 1) = (ob : Int) :=
    clamp_of_le (by omega) (by omega)
  have e3 : clamp (nb : Int) 0 ((newDoc.length : Int) - 1) = (nb : Int) :=
    clamp_of_le (by omega) (by omega)
  rw [e1, e2, e3]
  have e4 : (min (s : Int) (ob : Int)).toNat = s := by omega
  have e5 : (max (s : Int) (ob : Int)).toNat = ob := by omega
  have e6 : (max (s : Int) (nb : Int)).toNat = nb := by omega
  rw [e4, e5, e6]
  simp only [List.map_drop, List.map_take]
  set f := wrapLine brk width with hf
  set WO := List.map f oldDoc with hWO
  set WN := List.map f newDoc with hWN
  set ksO := List.map List.length WO with hksO
  set ksN := List.map List.length WN with hksN
  set ksMid := List.drop s (List.take (nb + 1) ksN) with hksMid
  have hlenO : ksO.length = oldDoc.length := by simp [hksO, hWO]
  have hlenN : ksN.length = newDoc.length := by simp [hksN, hWN]
  have hslt : s < ksO.length := by omega
  have hoblt : ob < ksO.length := by omega
  rw [buildRowLists_getD ksO 0 s hslt, buildRowLists_getD ksO 0 ob hoblt]
  simp only [range'_headD, range'_getLastD, Nat.zero_add]
  simp only [buildInfo_length]
  have hmidlen_doc : (List.drop s (List.take (nb + 1) newDoc)).length = nb + 1 - s := by
    rw [List.length_drop, List.length_take]; omega
  rw [hmidlen_doc]
  -- the pre-edit window height
  have hObP1 : heightSum (List.take ob ksO) + ksO.getD ob 0
      = heightSum (List.take (ob + 1) ksO) - 1 := by
    rw [heightSum_take_succ ksO ob hoblt]; omega
  have hObPpos : 1 ≤ heightSum (List.take (ob + 1) ksO) := by
    have h1 := heightSum_ge_length (List.take (ob + 1) ksO)
    rw [List.length_take] at h1; omega
  rw [hObP1, show heightSum (List.take (ob + 1) ksO) - 1 + 1
    = heightSum (List.take (ob + 1) ksO) from by omega]
  -- decompose the old index around the window [s, ob]
  have hsnb1 : s ≤ nb + 1 := by omega
  have hsob1 : s ≤ ob + 1 := by omega
  have hAOtake : (List.take (ob + 1) ksO).take s = List.take s ksO := by
    rw [List.take_take, min_eq_left hsob1]
  have hsplitOb : List.take (ob + 1) ksO
      = List.take s ksO ++ List.drop s (List.take (ob + 1) ksO) := by
    conv_lhs => rw [← List.take_append_drop s (List.take (ob + 1) ksO)]
    rw [hAOtake]
  have hlenAO : (List.take s ksO).length = s := by
    rw [List.length_take]; omega
  have hlenBO : (List.drop s (List.take (ob + 1) ksO)).length = ob + 1 - s := by
    rw [List.length_drop, List.length_take]; omega
  have hHobSplit : heightSum (List.take (ob + 1) ksO)
      = heightSum (List.take s ksO) + heightSum (List.drop s (List.take (ob + 1) ksO)) := by
    conv_lhs => rw [hsplitOb]
    rw [heightSum_append]
  have hBOpos : 1 ≤ heightSum (List.drop s (List.take (ob + 1) ksO)) := by
    have h1 := heightSum_ge_length (List.drop s (List.take (ob + 1) ksO))
    omega
  have hsplitO : ksO = List.take s ksO ++ List.drop s (List.take (ob + 1) ksO)
      ++ List.drop (ob + 1) ksO := by
    conv_lhs => rw [← List.take_append_drop (ob + 1) ksO, hsplitOb]
  have hInfoO : buildInfo ksO 0
      = buildInfo (List.take s ksO) 0 ++ buildInfo (List.drop s (List.take (ob + 1) ksO)) s
        ++ buildInfo (List.drop (ob + 1) ksO) (ob + 1) := by
    conv_lhs => rw [hsplitO]
    rw [buildInfo_append, buildInfo_append, List.length_append, hlenAO, hlenBO]
    rw [show s + (ob + 1 - s) = ob + 1 from by omega, Nat.zero_add, Nat.zero_add]
  have hRowsO : buildRowLists ksO 0
      = buildRowLists (List.take s ksO) 0
        ++ buildRowLists (List.drop s (List.take (ob + 1) ksO)) (heightSum (List.take s ksO))
        ++ buildRowLists (List.drop (ob + 1) ksO) (heightSum (List.take (ob + 1) ksO)) := by
    conv_lhs => rw [hsplitO]
    rw [buildRowLists_append, buildRowLists_append, heightSum_append, Nat.zero_add,
      Nat.zero_add, ← hHobSplit]
  have htakeInfo : List.take (heightSum (List.take s ksO)) (buildInfo ksO 0)
      = buildInfo (List.take s ksO) 0 := by
    rw [hInfoO, List.append_assoc]
    exact List.take_left' (buildInfo_length _ _)
  have hdropInfo : List.drop (heightSum (List.take (ob + 1) ksO)) (buildInfo ksO 0)
      = buildInfo (List.drop (ob + 1) ksO) (ob + 1) := by
    rw [hInfoO]
    refine List.drop_left' ?_
    rw [List.length_append, buildInfo_length, buildInfo_length, ← hHobSplit]
  have htakeRows : List.take s (buildRowLists ksO 0)
      = buildRowLists (List.take s ksO) 0 := by
    rw [hRowsO, List.append_assoc]
    refine List.take_left' ?_
    rw [buildRowLists_length, hlenAO]
  have hdropRows : List.drop (ob + 1) (buildRowLists ksO 0)
      = buildRowLists (List.drop (ob + 1) ksO) (heightSum (List.take (ob + 1) ksO)) := by
    rw [hRowsO]
    refine List.drop_left' ?_
    rw [List.length_append, buildRowLists_length, buildRowLists_length, hlenAO, hlenBO]
    omega
  rw [htakeInfo, hdropInfo, htakeRows, hdropRows]
  -- relate the post-edit index to the old one outside the window
  have hWtop : List.take s WN = List.take s WO := by
    rw [hWN, hWO, ← List.map_take, ← List.map_take, htop]
  have hWbot : List.drop (nb + 1) WN = List.drop (ob + 1) WO := by
    rw [hWN, hWO, ← List.map_drop, ← List.map_drop, hbot]
  have hAN : List.take s ksN = List.take s ksO := by
    rw [hksN, hksO, hWN, hWO]
    simp only [← List.map_take, htop]
  have hCN : List.drop (nb + 1) ksN = List.drop (ob + 1) ksO := by
    rw [hksN, hksO, hWN, hWO]
    simp only [← List.map_drop, hbot]
  have hlenMid : ksMid.length = nb + 1 - s := by
    rw [hksMid, List.length_drop, List.length_take]; omega
  have hHpreN : heightSum (List.take s ksN) = heightSum (List.take s ksO) := by rw [hAN]
  have hsplitN : ksN = List.take s ksN ++ ksMid ++ List.drop (nb + 1) ksN := by
    conv_lhs => rw [← List.take_append_drop (nb + 1) ksN]
    rw [← List.take_append_drop s (List.take (nb + 1) ksN), List.take_take,
      min_eq_left hsnb1, ← hksMid]
  have hInfoN : buildInfo ksN 0
      = buildInfo (List.take s ksO) 0 ++ buildInfo ksMid s
        ++ buildInfo (List.drop (ob + 1) ksO) (nb + 1) := by
    conv_lhs => rw [hsplitN]
    rw [buildInfo_append, buildInfo_append, List.length_append, hAN, hlenAO, hlenMid]
    rw [show s + (nb + 1 - s) = nb + 1 from by omega, Nat.zero_add, Nat.zero_add, hCN]
  have hRowsN : buildRowLists ksN 0
      = buildRowLists (List.take s ksO) 0
        ++ buildRowLists ksMid (heightSum (List.take s ksO))
        ++ buildRowLists (List.drop (ob + 1) ksO)
            (heightSum (List.take s ksO) + heightSum ksMid) := by
    conv_lhs => rw [hsplitN]
    rw [buildRowLists_append, buildRowLists_append, heightSum_append, Nat.zero_add,
      Nat.zero_add, hAN, hCN]
  rw [hInfoN, hRowsN]
  -- the spliced raw lines recombine to the post-edit document
  have hWsplice : List.take s WO ++ List.drop s (List.take (nb + 1) WN)
      ++ List.drop (ob + 1) WO = WN := by
    rw [← hWtop, ← hWbot]
    conv_rhs => rw [← List.take_append_drop (nb + 1) WN]
    conv_rhs =>
      rw [← List.take_append_drop s (List.take (nb + 1) WN), List.take_take,
        min_eq_left hsnb1]
  simp only [WrappedState.mk.injEq]
  refine ⟨hWsplice, ?_, ?_, trivial⟩
  · -- row-to-line map
    by_cases hls : (nb : Int) - (ob : Int) = 0
    · rw [if_neg (by omega)]
      rw [show nb = ob from by omega]
    · rw [if_pos (by omega)]
      have hlen12 : (buildInfo (List.take s ksO) 0 ++ buildInfo ksMid s).length
          = heightSum (List.take s ksO) + heightSum ksMid := by
        rw [List.length_append, buildInfo_length, buildInfo_length]
      have hmapz := buildInfo_shift (List.drop (ob + 1) ksO) (ob + 1)
        ((nb : Int) - (ob : Int)) (by omega)
      rw [show (((ob + 1 : Nat) : Int) + ((nb : Int) - (ob : Int))).toNat = nb + 1 from by
        omega] at hmapz
      simp only [List.map_append]
      rw [List.drop_left' (by
        rw [List.length_append, List.length_map, List.length_map, buildInfo_length,
          buildInfo_length])]
      rw [hmapz, List.take_left' hlen12]
  · -- line-to-rows map
    by_cases hos : ((heightSum ksMid : Int))
        - ((((heightSum (List.take (ob + 1) ksO) - 1 : Nat)) : Int)
            - ((heightSum (List.take s ksO) : Nat) : Int) + 1) = 0
    · rw [if_neg (by omega)]
      rw [show heightSum (List.take s ksO) + heightSum ksMid
        = heightSum (List.take (ob + 1) ksO) from by omega]
    · rw [if_pos (by omega)]
      have hlen12 : (buildRowLists (List.take s ksO) 0
            ++ buildRowLists ksMid (heightSum (List.take s ksO))).length
          = s + (nb + 1 - s) := by
        rw [List.length_append, buildRowLists_length, buildRowLists_length, hlenAO, hlenMid]
      have hmapz := buildRowLists_shift (List.drop (ob + 1) ksO)
        (heightSum (List.take (ob + 1) ksO))
        (((heightSum ksMid : Int))
          - ((((heightSum (List.take (ob + 1) ksO) - 1 : Nat)) : Int)
              - ((heightSum (List.take s ksO) : Nat) : Int) + 1)) (by omega)
      rw [show (((heightSum (List.take (ob + 1) ksO) : Nat) : Int)
          + (((heightSum ksMid : Int))
            - ((((heightSum (List.take (ob + 1) ksO) - 1 : Nat)) : Int)
                - ((heightSum (List.take s ksO) : Nat) : Int) + 1))).toNat
          = heightSum (List.take s ksO) + heightSum ksMid from by omega] at hmapz
      simp only [List.map_append]
      rw [List.drop_left' (by
        rw [List.length_append, List.length_map, List.length_map, buildRowLists_length,
          buildRowLists_length, hlenAO, hlenMid])]
      rw [hmapz, List.take_left' hlen12]

/-! ## Consistency of wrap states -/

theorem range'_getElem? (a n j : Nat) (hj : j < n) :
    (List.range' a n)[j]? = some (a + j) := by
  induction n generalizing a j with
  | zero => omega
  | succ n ih =>
    rw [List.range'_succ]
    cases j with
    | zero => simp
    | succ j =>
      have hj' : j < n := by omega
      simp only [List.getElem?_cons_succ, ih (a + 1) j hj']
      congr 1
      omega

theorem range'_getD (a n j : Nat) (hj : j < n) :
    (List.range' a n).getD j 0 = a + j := by
  rw [List.getD_eq_getElem?_getD, range'_getElem? a n j hj]
  rfl

theorem lineRows_length (i k : Nat) : (lineRows i k).length = k + 1 := by
  simp [lineRows]

theorem lineRows_getElem? (i k j : Nat) (hj : j < k + 1) :
    (lineRows i k)[j]? = some (i, j) := by
  simp only [lineRows, List.getElem?_map, List.getElem?_range hj]
  rfl

theorem buildInfo_inv1 (ks : List Nat) :
    ∀ (i y0 y : Nat) (p : Nat × Nat), (buildInfo ks i)[y]? = some p →
      i ≤ p.1 ∧ ∃ rl, (buildRowLists ks y0)[p.1 - i]? = some rl
        ∧ rl[p.2]? = some (y0 + y) := by
  induction ks with
  | nil => intro i y0 y p hp; simp [buildInfo] at hp
  | cons k ks ih =>
    intro i y0 y p hp
    simp only [buildInfo] at hp
    by_cases hy : y < k + 1
    · rw [List.getElem?_append_left (by rw [lineRows_length]; omega)] at hp
      rw [lineRows_getElem? i k y hy] at hp
      obtain rfl : p = (i, y) := by simpa using hp.symm
      refine ⟨le_refl i, List.range' y0 (k + 1), ?_, ?_⟩
      · simp [buildRowLists]
      · exact range'_getElem? y0 (k + 1) y hy
    · rw [List.getElem?_append_right (by rw [lineRows_length]; omega)] at hp
      rw [lineRows_length] at hp
      obtain ⟨hle, rl, hrl, hget⟩ := ih (i + 1) (y0 + k + 1) (y - (k + 1)) p hp
      refine ⟨by omega, rl, ?_, ?_⟩
      · rw [show p.1 - i = (p.1 - (i + 1)) + 1 from by omega]
        simpa [buildRowLists] using hrl
      · rw [hget]
        congr 1
        omega

theorem buildInfo_inv2 (ks : List Nat) :
    ∀ (i y0 l sec y : Nat) (rl : List Nat), (buildRowLists ks y0)[l]? = some rl →
      rl[sec]? = some y → y0 ≤ y ∧ (buildInfo ks i)[y - y0]? = some (i + l, sec) := by
  induction ks with
  | nil => intro i y0 l sec y rl hrl; simp [buildRowLists] at hrl
  | cons k ks ih =>
    intro i y0 l sec y rl hrl hsec
    simp only [buildRowLists] at hrl
    cases l with
    | zero =>
      obtain rfl : rl = List.range' y0 (k + 1) := by simpa using hrl.symm
      have hseclt : sec < k + 1 := by
        by_contra hc
        rw [List.getElem?_eq_none (by simpa using by omega)] at hsec
        exact Option.noConfusion hsec
      rw [range'_getElem? y0 (k + 1) sec hseclt] at hsec
      obtain rfl : y = y0 + sec := by simpa using hsec.symm
      refine ⟨by omega, ?_⟩
      simp only [buildInfo]
      rw [List.getElem?_append_left (by rw [lineRows_length]; omega)]
      rw [show y0 + sec - y0 = sec from by omega, lineRows_getElem? i k sec hseclt]
      simp
    | succ l =>
      rw [List.getElem?_cons_succ] at hrl
      obtain ⟨hle, hget⟩ := ih (i + 1) (y0 + k + 1) l sec y rl hrl hsec
      refine ⟨by omega, ?_⟩
      simp only [buildInfo]
      rw [List.getElem?_append_right (by rw [lineRows_length]; omega), lineRows_length]
      rw [show y - y0 - (k + 1) = y - (y0 + k + 1) from by omega, hget]
      rw [show i + 1 + l = i + (l + 1) from by omega]

theorem buildInfo_fst_bound (ks : List Nat) (i : Nat) :
    ∀ p ∈ buildInfo ks i, i ≤ p.1 ∧ p.1 < i + ks.length := by
  induction ks generalizing i with
  | nil => intro p hp; simp [buildInfo] at hp
  | cons k ks ih =>
    intro p hp
    simp only [buildInfo, List.mem_append] at hp
    rcases hp with hp | hp
    · simp only [lineRows, List.mem_map] at hp
      obtain ⟨j, hj, rfl⟩ := hp
      simp
    · have h := ih (i + 1) p hp
      simp only [List.length_cons]
      omega

theorem wrap_height (brk : Line → Nat → List Nat) (doc : Doc) (width : Nat) :
    (wrap brk doc width).height
      = heightSum (List.map List.length (List.map (wrapLine brk width) doc)) := by
  simp only [wrap, WrappedState.height, heightSum, List.map_map]
  rfl

theorem wrap_consistent (brk : Line → Nat → List Nat) (doc : Doc) (width : Nat) :
    Consistent doc (wrap brk doc width) := by
  refine ⟨?_, ?_, ?_, ?_, ?_, ?_⟩
  · simp [wrap]
  · simp [wrap, buildRowLists_length]
  · intro p hp
    simp only [wrap] at hp
    have h := buildInfo_fst_bound _ 0 p hp
    simpa using h.2
  · intro y p hp
    simp only [wrap] at hp ⊢
    obtain ⟨hle, rl, hrl, hget⟩ := buildInfo_inv1 _ 0 0 y p hp
    exact ⟨rl, by simpa using hrl, by simpa using hget⟩
  · intro l sec y rl hrl hsec
    simp only [wrap] at hrl ⊢
    obtain ⟨hle, hget⟩ := buildInfo_inv2 _ 0 0 l sec y rl hrl hsec
    simpa using hget
  · rw [wrap_height]
    simp [wrap, buildInfo_length]

theorem reaches_eq {brk : Line → Nat → List Nat} {width : Nat} {doc : Doc}
    {st : WrappedState} (h : Reaches brk width doc st) : st = wrap brk doc width := by
  induction h with
  | init doc => rfl
  | step c1 c2 c3 hre hedit ih =>
    rw [ih]
    exact wrap_range_eq_wrap _ _ hedit c1 c2 c3

/-! ## Cell-width measurement lemmas -/

theorem charWidth_space : charWidth ' ' = 1 := by decide

theorem cell_len_append (a b : Line) : cell_len (a ++ b) = cell_len a + cell_len b := by
  simp [cell_len]

theorem cell_len_replicate_space (n : Nat) : cell_len (List.replicate n ' ') = n := by
  simp [cell_len, List.map_replicate, charWidth_space]

theorem cell_len_expandTabsGo (tw : Nat) (text : Line) (col : Nat) :
    cell_len (expandTabsGo tw text col) = sumW tw text col := by
  induction text generalizing col with
  | nil => rfl
  | cons c rest ih =>
    by_cases hc : c = '\t'
    · simp only [expandTabsGo, sumW, if_pos hc, stepW, cell_len_append,
        cell_len_replicate_space, ih]
    · simp only [expandTabsGo, sumW, if_neg hc, stepW]
      simp only [cell_len, List.map_cons, List.sum_cons]
      rw [show (List.map charWidth (expandTabsGo tw rest (col + charWidth c))).sum
        = cell_len (expandTabsGo tw rest (col + charWidth c)) from rfl, ih]

theorem stepW_pos {tw : Nat} (htw : 1 ≤ tw) {c : Char} (hc : 1 ≤ charWidth c)
    (col : Nat) : 1 ≤ stepW tw col c := by
  unfold stepW
  split
  · have := Nat.mod_lt col (show 0 < tw from htw)
    omega
  · exact hc

theorem cwtciGo_exact (tw : Nat) (htw : 1 ≤ tw) :
    ∀ (text : Line) (m col idx : Nat), m ≤ text.length →
      (∀ c ∈ text, 1 ≤ charWidth c) →
      cwtciGo tw text col (col + sumW tw (text.take m) col) idx = idx + m := by
  intro text
  induction text with
  | nil =>
    intro m col idx hm _
    obtain rfl : m = 0 := by simpa using hm
    rfl
  | cons c rest ih =>
    intro m col idx hm hpos
    cases m with
    | zero =>
      simp only [List.take_zero, sumW, Nat.add_zero]
      simp only [cwtciGo]
      rw [if_pos]
      have := stepW_pos htw (hpos c (List.mem_cons_self c rest)) col
      omega
    | succ m =>
      simp only [List.take_succ_cons, sumW, cwtciGo]
      rw [if_neg (by omega)]
      have hm' : m ≤ rest.length := by simpa using hm
      have hpos' : ∀ x ∈ rest, 1 ≤ charWidth x := fun x hx => hpos x (List.mem_cons_of_mem c hx)
      rw [show col + (stepW tw col c + sumW tw (rest.take m) (col + stepW tw col c))
        = (col + stepW tw col c) + sumW tw (rest.take m) (col + stepW tw col c) from by omega]
      rw [ih m (col + stepW tw col c) (idx + 1) hm' hpos']
      omega

/-! ## Bisection and section lemmas -/

theorem bisect_right_natCast (offs : List Nat) (col : Nat) :
    bisect_right offs (col : Int) = (offs.filter (fun o => o ≤ col)).length := by
  unfold bisect_right
  congr 1
  refine List.filter_congr ?_
  intro o _
  simp

theorem natBisect_le_length (offs : List Nat) (col : Nat) :
    (offs.filter (fun o => o ≤ col)).length ≤ offs.length :=
  List.length_filter_le _ _

theorem natBisect_start_le (offs : List Nat) (pv col : Nat) (hpv : pv ≤ col)
    (hs : List.Pairwise (· < ·) offs) :
    (pv :: offs).getD ((offs.filter (fun o => o ≤ col)).length) 0 ≤ col := by
  induction offs generalizing pv with
  | nil => simpa using hpv
  | cons o rest ih =>
    by_cases ho : o ≤ col
    · rw [List.filter_cons_of_pos (by simpa using ho), List.length_cons]
      exact ih o ho (List.Pairwise.of_cons hs)
    · rw [List.filter_cons_of_neg (by simpa using ho)]
      rw [List.filter_eq_nil_iff.mpr (by
        intro x hx
        have hox := (List.pairwise_cons.mp hs).1 x hx
        simp only [decide_eq_true_eq]
        omega)]
      simpa using hpv

theorem natBisect_lt_next (offs : List Nat) (col : Nat)
    (hs : List.Pairwise (· < ·) offs)
    (hlt : (offs.filter (fun o => o ≤ col)).length < offs.length) :
    col < offs.getD ((offs.filter (fun o => o ≤ col)).length) 0 := by
  induction offs with
  | nil => simp at hlt
  | cons o rest ih =>
    by_cases ho : o ≤ col
    · rw [List.filter_cons_of_pos (by simpa using ho)] at hlt ⊢
      rw [List.length_cons, List.getD_cons_succ]
      exact ih (List.Pairwise.of_cons hs) (by simpa using hlt)
    · rw [List.filter_cons_of_neg (by simpa using ho)]
      rw [List.filter_eq_nil_iff.mpr (by
        intro x hx
        have hox := (List.pairwise_cons.mp hs).1 x hx
        simp only [decide_eq_true_eq]
        omega)]
      simpa using by omega

theorem divideGo_length (line : Line) (prev : Nat) (offs : List Nat) :
    (divideGo line prev offs).length = offs.length + 1 := by
  induction offs generalizing prev with
  | nil => rfl
  | cons o rest ih => simp [divideGo, ih]

theorem divideGo_getD (line : Line) (offs : List Nat) (prev si : Nat)
    (hsi : si ≤ offs.length) :
    (divideGo line prev offs).getD si []
      = if si < offs.length
        then sliceFT line ((prev :: offs).getD si 0) (offs.getD si 0)
        else line.drop ((prev :: offs).getD si 0) := by
  induction offs generalizing prev si with
  | nil =>
    obtain rfl : si = 0 := by simpa using hsi
    simp [divideGo]
  | cons o rest ih =>
    cases si with
    | zero => simp [divideGo]
    | succ si =>
      have hsi' : si ≤ rest.length := by simpa using hsi
      simp only [divideGo, List.getD_cons_succ, ih o si hsi', List.length_cons]
      by_cases h : si < rest.length
      · rw [if_pos h, if_pos (by omega)]
      · rw [if_neg h, if_neg (by omega)]

theorem cons_getD_ge (o : Nat) (rest : List Nat) (j : Nat) (hj : j ≤ rest.length)
    (h : ∀ x ∈ rest, o ≤ x) : o ≤ (o :: rest).getD j 0 := by
  cases j with
  | zero => simp
  | succ j =>
    have hj' : j < rest.length := by omega
    rw [List.getD_cons_succ, List.getD_eq_getElem?_getD, List.getElem?_eq_getElem hj']
    exact h _ (List.getElem_mem hj')

theorem divideGo_start_sum (line : Line) (offs : List Nat) (prev si : Nat)
    (hsi : si ≤ offs.length) (hbound : ∀ o ∈ offs, o ≤ line.length)
    (hmono : ∀ o ∈ offs, prev ≤ o) (hs : List.Pairwise (· < ·) offs)
    (hprev : prev ≤ line.length) :
    (((divideGo line prev offs).take si).map List.length).sum
      = (prev :: offs).getD si 0 - prev := by
  induction offs generalizing prev si with
  | nil =>
    obtain rfl : si = 0 := by simpa using hsi
    simp
  | cons o rest ih =>
    cases si with
    | zero => simp
    | succ si =>
      have hsi' : si ≤ rest.length := by simpa using hsi
      have hmem : o ∈ o :: rest := List.mem_cons_self o rest
      have hole : o ≤ line.length := hbound o hmem
      have hpo : prev ≤ o := hmono o hmem
      simp only [divideGo, List.take_succ_cons, List.map_cons, List.sum_cons,
        List.getD_cons_succ]
      rw [ih o si hsi' (fun x hx => hbound x (List.mem_cons_of_mem o hx))
        (fun x hx => le_of_lt ((List.pairwise_cons.mp hs).1 x hx))
        (List.Pairwise.of_cons hs) hole]
      have hlen : (sliceFT line prev o).length = o - prev := by
        simp only [sliceFT, List.length_drop, List.length_take]
        omega
      rw [hlen]
      have hge : o ≤ (o :: rest).getD si 0 :=
        cons_getD_ge o rest si hsi'
          (fun x hx => le_of_lt ((List.pairwise_cons.mp hs).1 x hx))
      omega

theorem heightSum_take_le (ks : List Nat) (n : Nat) :
    heightSum (ks.take n) ≤ heightSum ks := by
  conv_rhs => rw [← List.take_append_drop n ks]
  rw [heightSum_append]
  omega

theorem buildInfo_getD (ks : List Nat) (i l si : Nat) (hl : l < ks.length)
    (hsi : si ≤ ks.getD l 0) :
    (buildInfo ks i).getD (heightSum (ks.take l) + si) (0, 0) = (i + l, si) := by
  induction ks generalizing i l with
  | nil => simp at hl
  | cons k ks ih =>
    cases l with
    | zero =>
      simp only [List.take_zero, heightSum_nil, Nat.zero_add, buildInfo]
      rw [List.getD_eq_getElem?_getD,
        List.getElem?_append_left (by rw [lineRows_length]; simp at hsi; omega),
        lineRows_getElem? i k si (by simp at hsi; omega)]
      rfl
    | succ l =>
      have hl' : l < ks.length := by simpa using hl
      have hsi' : si ≤ ks.getD l 0 := by simpa using hsi
      simp only [List.take_succ_cons, heightSum_cons, buildInfo]
      rw [List.getD_eq_getElem?_getD,
        List.getElem?_append_right (by rw [lineRows_length]; omega), lineRows_length]
      rw [show k + 1 + heightSum (List.take l ks) + si - (k + 1)
        = heightSum (List.take l ks) + si from by omega]
      rw [← List.getD_eq_getElem?_getD, ih (i + 1) l hl' hsi']
      rw [show i + 1 + l = i + (l + 1) from by omega]

theorem getD_map_of_lt {α β : Type} (g : α → β) (xs : List α) (l : Nat)
    (hl : l < xs.length) (d : β) (d' : α) : (xs.map g).getD l d = g (xs.getD l d') := by
  rw [List.getD_eq_getElem?_getD, List.getElem?_map, List.getElem?_eq_getElem hl,
    List.getD_eq_getElem?_getD, List.getElem?_eq_getElem hl]
  rfl

/-- C3 (amended): for every wrapped document with `width > 0`, every positive
tab width, and every valid mid-section location `(l, col)` on a line whose
wrap offsets satisfy the §3 break invariants and all of whose characters have
positive cell width, `offset_to_location (location_to_offset L t) t = L`.
The positivity requirement is forced by the counterexample
`C3_roundtrip_counterexample`: a zero-width (combining) character breaks the
round trip as originally claimed. -/
theorem roundtrip_mid_section (brk : Line → Nat → List Nat) (doc : Doc)
    (width t : Nat) (hw : width ≠ 0) (ht : 1 ≤ t) (l col : Nat)
    (hl : l < doc.length) (hcol : col < (doc.getD l []).length)
    (hv : ValidBreaks (doc.getD l []).length (wrapLine brk width (doc.getD l [])))
    (hpos : ∀ c ∈ doc.getD l [], 1 ≤ charWidth c) :
    (location_to_offset (wrap brk doc width) doc ((l : Int), (col : Int)) t).map
      (fun off => offset_to_location (wrap brk doc width) doc
        ((off.1 : Int), (off.2 : Int)) t)
    = some (l, col) := by
  obtain ⟨hsort, hbnd⟩ := hv
  set line := doc.getD l [] with hline
  set offs := wrapLine brk width (doc.getD l []) with hoffs
  set ks := List.map List.length (List.map (wrapLine brk width) doc) with hks
  set si := (offs.filter (fun o => o ≤ col)).length with hsi
  set start := (0 :: offs).getD si 0 with hstart
  have hkslen : ks.length = doc.length := by simp [hks]
  have hkl : ks.getD l 0 = offs.length := by
    rw [hks, getD_map_of_lt List.length _ l (by simpa using hl) 0 [],
      getD_map_of_lt (wrapLine brk width) _ l hl [] []]
  have hsilen : si ≤ offs.length := natBisect_le_length offs col
  have hstart_le : start ≤ col := natBisect_start_le offs 0 col (Nat.zero_le col) hsort
  -- evaluate location_to_offset
  have h_rows_len : (wrap brk doc width).line_index_to_offsets.length = doc.length := by
    simp [wrap, buildRowLists_length]
  have h_clamp : clamp (l : Int) 0 ((wrap brk doc width).line_index_to_offsets.length : Int)
      = (l : Int) := by
    rw [h_rows_len]
    exact clamp_of_le (by omega) (by omega)
  have h_wolen : (wrap brk doc width).wrap_offsets.length = doc.length := by simp [wrap]
  have h_pywo : pyGetD (wrap brk doc width).wrap_offsets (l : Int) [] = offs := by
    simp only [pyGetD, pyIndex, if_neg (by omega : ¬ (l : Int) < 0), Int.toNat_natCast]
    simp only [wrap]
    rw [getD_map_of_lt (wrapLine brk width) doc l hl [] []]
  have h_goff : get_offsets (wrap brk doc width) (l : Int) = some offs := by
    rw [get_offsets, if_neg (by rw [h_wolen]; omega)]
    rw [h_pywo]
  simp only [location_to_offset, h_clamp, h_goff]
  rw [bisect_right_natCast offs col, ← hsi, ← hstart]
  have h_pyline : pyGetD doc (l : Int) [] = line := by
    simp only [pyGetD, pyIndex, if_neg (by omega : ¬ (l : Int) < 0), Int.toNat_natCast,
      hline]
  have h_sections : get_sections (wrap brk doc width) doc (l : Int)
      = divideAt line offs := by
    rw [get_sections, h_pyline, h_pywo]
  have h_pyrows : pyGetD (wrap brk doc width).line_index_to_offsets (l : Int) []
      = List.range' (heightSum (ks.take l)) (offs.length + 1) := by
    simp only [pyGetD, pyIndex, if_neg (by omega : ¬ (l : Int) < 0), Int.toNat_natCast]
    simp only [wrap]
    rw [buildRowLists_getD _ 0 l (by rw [hkslen]; omega), Nat.zero_add, ← hks, hkl]
  rw [h_sections, h_pyrows, range'_getD _ _ si (by omega)]
  -- the section containing the location
  set stop := if si < offs.length then offs.getD si 0 else line.length with hstop
  have h_col_stop : col < stop := by
    rw [hstop]
    split
    · exact natBisect_lt_next offs col hsort (by omega)
    · exact hcol
  have h_stop_le : stop ≤ line.length := by
    rw [hstop]
    split
    · have hmem : offs.getD si 0 ∈ offs := by
        rw [List.getD_eq_getElem?_getD, List.getElem?_eq_getElem (by omega)]
        exact List.getElem_mem _
      exact (hbnd _ hmem).2
    · exact le_refl _
  have h_start_stop : start ≤ stop := by omega
  have h_sect : (divideAt line offs).getD si [] = sliceFT line start stop := by
    rw [divideAt, divideGo_getD line offs 0 si hsilen, hstop]
    split
    · rfl
    · rw [sliceFT, List.take_length]
  have h_sect_len : (sliceFT line start stop).length = stop - start := by
    rw [sliceFT, List.length_drop, List.length_take]
    omega
  have h_m_lt : col - start < stop - start := by omega
  have h_pytake : pyTake (sliceFT line start stop) ((col : Int) - (start : Int))
      = (sliceFT line start stop).take (col - start) := by
    rw [pyTake, pyIndex, if_neg (by omega)]
    congr 1
    omega
  rw [h_sect, h_pytake]
  -- evaluate offset_to_location on the resulting offset
  have h_hpos_sect : ∀ c ∈ sliceFT line start stop, 1 ≤ charWidth c := by
    intro c hc
    exact hpos c (List.mem_of_mem_take (List.mem_of_mem_drop hc))
  have h_x : cell_len (expand_tabs_inline ((sliceFT line start stop).take (col - start)) t)
      = sumW t ((sliceFT line start stop).take (col - start)) 0 :=
    cell_len_expandTabsGo t _ 0
  rw [Option.map_some']
  congr 1
  simp only [offset_to_location, Int.toNat_natCast]
  rw [show (wrap brk doc width).width = width from rfl, if_neg hw]
  have h_infolen : (wrap brk doc width).offset_to_line_info.length = heightSum ks := by
    simp only [wrap, buildInfo_length, ← hks]
  have h_Ylt : heightSum (List.take l ks) + si < heightSum ks := by
    have h1 : heightSum (List.take (l + 1) ks)
        = heightSum (List.take l ks) + (ks.getD l 0 + 1) :=
      heightSum_take_succ ks l (by omega)
    have h2 := heightSum_take_le ks (l + 1)
    rw [hkl] at h1
    omega
  rw [if_pos (by rw [h_infolen]; exact h_Ylt)]
  have h_getD : (wrap brk doc width).offset_to_line_info.getD
      (heightSum (List.take l ks) + si) (0, 0) = (l, si) := by
    simp only [wrap, ← hks]
    have := buildInfo_getD ks 0 l si (by omega) (by rw [hkl]; exact hsilen)
    simpa using this
  rw [h_getD]
  simp only [get_target_document_column, h_sections]
  have h_pysect : pyGetD (divideAt line offs) (si : Int) [] = sliceFT line start stop := by
    rw [pyGetD, pyIndex, if_neg (by omega), Int.toNat_natCast]
    exact h_sect
  have h_pytakes : pyTake (divideAt line offs) (si : Int) = (divideAt line offs).take si := by
    rw [pyTake, pyIndex, if_neg (by omega), Int.toNat_natCast]
  rw [h_pysect, h_pytakes]
  have h_startsum : (((divideAt line offs).take si).map List.length).sum = start := by
    rw [divideAt]
    have h := divideGo_start_sum line offs 0 si hsilen (fun o ho => (hbnd o ho).2)
      (fun o _ => Nat.zero_le o) hsort (Nat.zero_le _)
    rw [Nat.sub_zero] at h
    rw [hstart]
    exact h
  rw [h_startsum]
  have h_cw : cell_width_to_column_index (sliceFT line start stop)
      (cell_len (expand_tabs_inline ((sliceFT line start stop).take (col - start)) t)) t
      = col - start := by
    rw [cell_width_to_column_index, h_x]
    have h := cwtciGo_exact t ht (sliceFT line start stop) (col - start) 0 0
      (by rw [h_sect_len]; omega) h_hpos_sect
    simpa using h
  rw [h_cw]
  have h_dlen : (divideAt line offs).length = offs.length + 1 := divideGo_length line 0 offs
  by_cases hlast : si = offs.length
  · rw [if_neg (by
      rw [h_dlen]
      push_cast
      omega)]
    refine Prod.ext rfl ?_
    simp only
    omega
  · rw [if_pos ⟨by rw [h_dlen]; push_cast; omega, by omega⟩]
    refine Prod.ext rfl ?_
    simp only
    rw [h_sect_len]
    have hstoplt : stop = offs.getD si 0 := by
      rw [hstop, if_pos (by omega)]
    omega

/-! ## Frame lemmas: entries outside the edited window -/

theorem buildRowLists_take0 (ks : List Nat) (n : Nat) (hn : n ≤ ks.length) :
    (buildRowLists ks 0).take n = buildRowLists (ks.take n) 0 := by
  conv_lhs => rw [← List.take_append_drop n ks, buildRowLists_append]
  refine List.take_left' ?_
  rw [buildRowLists_length, List.length_take]
  omega

theorem buildRowLists_drop0 (ks : List Nat) (n : Nat) (hn : n ≤ ks.length) :
    (buildRowLists ks 0).drop n = buildRowLists (ks.drop n) (heightSum (ks.take n)) := by
  conv_lhs => rw [← List.take_append_drop n ks, buildRowLists_append]
  rw [Nat.zero_add]
  refine List.drop_left' ?_
  rw [buildRowLists_length, List.length_take]
  omega

theorem buildInfo_take0 (ks : List Nat) (n : Nat) :
    (buildInfo ks 0).take (heightSum (ks.take n)) = buildInfo (ks.take n) 0 := by
  have hdec : buildInfo ks 0
      = buildInfo (ks.take n) 0 ++ buildInfo (ks.drop n) (0 + (ks.take n).length) := by
    conv_lhs => rw [← List.take_append_drop n ks]
    rw [buildInfo_append]
  rw [hdec]
  exact List.take_left' (buildInfo_length _ _)

theorem buildInfo_drop0 (ks : List Nat) (n : Nat) (hn : n ≤ ks.length) :
    (buildInfo ks 0).drop (heightSum (ks.take n)) = buildInfo (ks.drop n) n := by
  have hdec : buildInfo ks 0
      = buildInfo (ks.take n) 0 ++ buildInfo (ks.drop n) (0 + (ks.take n).length) := by
    conv_lhs => rw [← List.take_append_drop n ks]
    rw [buildInfo_append]
  rw [hdec, Nat.zero_add, List.length_take, min_eq_left hn]
  exact List.drop_left' (buildInfo_length _ _)

/-- C10: `wrap_range` leaves every index entry for document lines strictly
above the affected window unchanged — their wrap-offset lists, their
line-to-rows entries, and the row-to-line entries for their rows (the rows
before `line_index_to_offsets[top][0]`); and when `line_shift = 0` (the edit
kept the bottom line index) and `offset_shift = 0` (the total height is
unchanged), the entries for lines and rows after the window are unchanged as
well. -/
theorem wrap_range_frame (brk : Line → Nat → List Nat) (width : Nat)
    {oldDoc newDoc : Doc} {s ob nb : Nat}
    (h : IsEdit oldDoc newDoc s ob nb) (c1 c2 c3 : Int) :
    (wrap_range brk (wrap brk oldDoc width) newDoc ((s : Int), c1) ((ob : Int), c2)
        ((nb : Int), c3)).wrap_offsets.take s
      = (wrap brk oldDoc width).wrap_offsets.take s
    ∧ (wrap_range brk (wrap brk oldDoc width) newDoc ((s : Int), c1) ((ob : Int), c2)
        ((nb : Int), c3)).line_index_to_offsets.take s
      = (wrap brk oldDoc width).line_index_to_offsets.take s
    ∧ (wrap_range brk (wrap brk oldDoc width) newDoc ((s : Int), c1) ((ob : Int), c2)
        ((nb : Int), c3)).offset_to_line_info.take
          (((wrap brk oldDoc width).line_index_to_offsets.getD s []).headD 0)
      = (wrap brk oldDoc width).offset_to_line_info.take
          (((wrap brk oldDoc width).line_index_to_offsets.getD s []).headD 0)
    ∧ (nb = ob →
        (wrap_range brk (wrap brk oldDoc width) newDoc ((s : Int), c1) ((ob : Int), c2)
            ((nb : Int), c3)).height = (wrap brk oldDoc width).height →
        (wrap_range brk (wrap brk oldDoc width) newDoc ((s : Int), c1) ((ob : Int), c2)
            ((nb : Int), c3)).wrap_offsets.drop (ob + 1)
          = (wrap brk oldDoc width).wrap_offsets.drop (ob + 1)
        ∧ (wrap_range brk (wrap brk oldDoc width) newDoc ((s : Int), c1) ((ob : Int), c2)
            ((nb : Int), c3)).line_index_to_offsets.drop (ob + 1)
          = (wrap brk oldDoc width).line_index_to_offsets.drop (ob + 1)
        ∧ (wrap_range brk (wrap brk oldDoc width) newDoc ((s : Int), c1) ((ob : Int), c2)
            ((nb : Int), c3)).offset_to_line_info.drop
              (((wrap brk oldDoc width).line_index_to_offsets.getD ob []).getLastD 0 + 1)
          = (wrap brk oldDoc width).offset_to_line_info.drop
              (((wrap brk oldDoc width).line_index_to_offsets.getD ob []).getLastD 0 + 1)) := by
  obtain ⟨hso, hsn, hob, hnb, hcount, htop, hbot⟩ := h
  rw [wrap_range_eq_wrap brk width ⟨hso, hsn, hob, hnb, hcount, htop, hbot⟩ c1 c2 c3]
  set f := wrapLine brk width with hf
  set ksO := List.map List.length (List.map f oldDoc) with hksO
  set ksN := List.map List.length (List.map f newDoc) with hksN
  have hlenO : ksO.length = oldDoc.length := by simp [hksO]
  have hlenN : ksN.length = newDoc.length := by simp [hksN]
  have hAN : List.take s ksN = List.take s ksO := by
    rw [hksN, hksO]
    simp only [← List.map_take, htop]
  have hWtakeN : List.take s (List.map f newDoc) = List.take s (List.map f oldDoc) := by
    simp only [← List.map_take, htop]
  have h_topy : ((wrap brk oldDoc width).line_index_to_offsets.getD s []).headD 0
      = heightSum (List.take s ksO) := by
    simp only [wrap, ← hksO, ← hf]
    rw [buildRowLists_getD ksO 0 s (by omega), Nat.zero_add, range'_headD]
  refine ⟨?_, ?_, ?_, ?_⟩
  · simp only [wrap, ← hf]
    exact hWtakeN
  · simp only [wrap, ← hf, ← hksO, ← hksN]
    rw [buildRowLists_take0 ksN s (by omega), buildRowLists_take0 ksO s (by omega), hAN]
  · rw [h_topy]
    simp only [wrap, ← hf, ← hksO, ← hksN]
    conv_lhs => rw [show heightSum (List.take s ksO) = heightSum (List.take s ksN) from by
      rw [hAN]]
    rw [buildInfo_take0 ksN s, buildInfo_take0 ksO s, hAN]
  · intro hnbob hheight
    rw [wrap_height, wrap_height, ← hf, ← hksO, ← hksN] at hheight
    have hCN : List.drop (nb + 1) ksN = List.drop (ob + 1) ksO := by
      rw [hksN, hksO]
      simp only [← List.map_drop, hbot]
    subst hnbob
    have hWdropN : List.drop (nb + 1) (List.map f newDoc)
        = List.drop (nb + 1) (List.map f oldDoc) := by
      simp only [← List.map_drop, hbot]
    have htakeHeq : heightSum (List.take (nb + 1) ksN) = heightSum (List.take (nb + 1) ksO) := by
      have h1 : heightSum ksN = heightSum (List.take (nb + 1) ksN)
          + heightSum (List.drop (nb + 1) ksN) := by
        conv_lhs => rw [← List.take_append_drop (nb + 1) ksN, heightSum_append]
      have h2 : heightSum ksO = heightSum (List.take (nb + 1) ksO)
          + heightSum (List.drop (nb + 1) ksO) := by
        conv_lhs => rw [← List.take_append_drop (nb + 1) ksO, heightSum_append]
      rw [hCN] at h1
      omega
    have h_oby : ((wrap brk oldDoc width).line_index_to_offsets.getD nb []).getLastD 0 + 1
        = heightSum (List.take (nb + 1) ksO) := by
      simp only [wrap, ← hksO, ← hf]
      rw [buildRowLists_getD ksO 0 nb (by omega), Nat.zero_add, range'_getLastD]
      rw [heightSum_take_succ ksO nb (by omega)]
      omega
    refine ⟨?_, ?_, ?_⟩
    · simp only [wrap, ← hf]
      exact hWdropN
    · simp only [wrap, ← hf, ← hksO, ← hksN]
      rw [buildRowLists_drop0 ksN (nb + 1) (by omega),
        buildRowLists_drop0 ksO (nb + 1) (by omega), hCN, htakeHeq]
    · rw [h_oby]
      simp only [wrap, ← hf, ← hksO, ← hksN]
      conv_lhs => rw [show heightSum (List.take (nb + 1) ksO)
        = heightSum (List.take (nb + 1) ksN) from htakeHeq.symm]
      rw [buildInfo_drop0 ksN (nb + 1) (by omega), buildInfo_drop0 ksO (nb + 1) (by omega),
        hCN]


/-! ## The claims -/

/-- C1: for every document and every edit applied to it, calling
`wrap_range(start, old_end, new_end)` after the edit leaves the three indexes
(wrap offsets, row-to-line map, line-to-rows map) equal to the indexes
produced by a full `wrap(width)` rebuild on the post-edit document at the
same width — in particular the entries after the affected window carry the
`line_shift` / `offset_shift` adjustments the full rebuild would produce. -/
theorem C1_wrap_range_equals_full_rebuild (brk : Line → Nat → List Nat)
    (width : Nat) {oldDoc newDoc : Doc} {s ob nb : Nat}
    (h : IsEdit oldDoc newDoc s ob nb) (c1 c2 c3 : Int) :
    wrap_range brk (wrap brk oldDoc width) newDoc ((s : Int), c1) ((ob : Int), c2)
      ((nb : Int), c3) = wrap brk newDoc width :=
  wrap_range_eq_wrap brk width h c1 c2 c3

/-- Witness for C1 at a concrete edit: line 0 of a three-line document is
replaced by two lines that wrap to extra rows (spec scenario 3 shape). -/
theorem C1_witness :
    IsEdit docHello docHello' 0 0 1
    ∧ wrap_range brkEvery (wrap brkEvery docHello 4) docHello'
        (((0 : Nat) : Int), 0) (((0 : Nat) : Int), 5) (((1 : Nat) : Int), 3)
      = wrap brkEvery docHello' 4 :=
  ⟨⟨by decide, by decide, by decide, by decide, by decide, by decide, by decide⟩,
    C1_wrap_range_equals_full_rebuild brkEvery 4
      ⟨by decide, by decide, by decide, by decide, by decide, by decide, by decide⟩
      0 5 3⟩

/-- C2: after construction via `wrap(width)` and after every sequence of
`wrap_range` calls for genuine edits, the data-model invariants hold: the
row-to-line and line-to-rows maps are exact inverses, all three indexes have
the document's line count, and the total visual row count equals the sum over
lines of `wrap offsets + 1`, which is the `height` property. -/
theorem C2_invariants_hold (brk : Line → Nat → List Nat) (width : Nat)
    {doc : Doc} {st : WrappedState} (h : Reaches brk width doc st) :
    Consistent doc st := by
  rw [reaches_eq h]
  exact wrap_consistent brk doc width

/-- Witness for C2 after one concrete `wrap_range` edit on line 1. -/
theorem C2_witness :
    Reaches brkEvery 4 docHello''
      (wrap_range brkEvery (wrap brkEvery docHello 4) docHello''
        (((1 : Nat) : Int), 0) (((1 : Nat) : Int), 2) (((1 : Nat) : Int), 2))
    ∧ Consistent docHello''
      (wrap_range brkEvery (wrap brkEvery docHello 4) docHello''
        (((1 : Nat) : Int), 0) (((1 : Nat) : Int), 2) (((1 : Nat) : Int), 2)) :=
  ⟨Reaches.step 0 2 2 (Reaches.init docHello)
      ⟨by decide, by decide, by decide, by decide, by decide, by decide, by decide⟩,
    C2_invariants_hold brkEvery 4
      (Reaches.step 0 2 2 (Reaches.init docHello)
        ⟨by decide, by decide, by decide, by decide, by decide, by decide, by decide⟩)⟩

/-- C3 as stated is false on the code: on the line `"a" + U+0301 + "b"`
(the combining acute accent has cell width 0), the valid mid-section location
`(0, 1)` maps to visual offset `(1, 0)`, and mapping back lands on column 2,
not column 1 — `cell_width_to_column_index` cannot distinguish columns
separated by a zero-width character. -/
theorem C3_roundtrip_counterexample :
    ¬ ((location_to_offset (wrap brkNil [combLine] 5) [combLine] (0, 1) 4).map
        (fun off => offset_to_location (wrap brkNil [combLine] 5) [combLine]
          ((off.1 : Int), (off.2 : Int)) 4)
      = some (0, 1)) := by decide

/-- Witness for C3 (amended) at a concrete wrapped document: `"abcd"` wrapped
at width 2, location `(0, 3)` (mid second section). -/
theorem C3_witness :
    (3 < (docAbcd.getD 0 []).length
      ∧ ValidBreaks (docAbcd.getD 0 []).length (wrapLine brkEvery 2 (docAbcd.getD 0 []))
      ∧ ∀ c ∈ docAbcd.getD 0 [], 1 ≤ charWidth c)
    ∧ (location_to_offset (wrap brkEvery docAbcd 2) docAbcd
        (((0 : Nat) : Int), ((3 : Nat) : Int)) 4).map
        (fun off => offset_to_location (wrap brkEvery docAbcd 2) docAbcd
          ((off.1 : Int), (off.2 : Int)) 4)
      = some (0, 3) :=
  ⟨⟨by decide, ⟨by decide, by decide⟩, by decide⟩,
    roundtrip_mid_section brkEvery docAbcd 2 4 (by decide) (by decide) 0 3
      (by decide) (by decide) ⟨by decide, by decide⟩ (by decide)⟩

/-- C4 fails on the code: `location_to_offset` clamps the line index to
`len(self._line_index_to_offsets)` instead of `len - 1`, so a location whose
line index is at or past the line count survives the clamp and `get_offsets`
raises `ValueError` (here: a one-line document queried at line index 1) —
the claim says out-of-bounds coordinates are clamped silently and the query
never fails. -/
theorem C4_line_index_at_line_count_raises :
    location_to_offset (wrap brkNil docX 3) docX (1, 0) 4 = none := by decide

/-- C5 fails on the code: `divide_line` evaluates `cumulative_widths[end]`
where `end == len(text)` for the final chunk while the table has exactly
`len(text)` entries, raising `IndexError` on every line that contains a
non-whitespace character; the round-trip property is about offsets it never
returns.  Evaluation at the failing input `"ab"`, width 10, tab size 4,
fold on. -/
theorem C5_divide_line_raises_on_ab :
    divide_line lineAB 10 4 true = none := by decide

/-- C6 fails on the code for the same reason as C5: `divide_line` raises
`IndexError` on any line with a word, so it returns no (strictly increasing)
list there.  Evaluation at the failing input `"a"`, width 5. -/
theorem C6_divide_line_raises_on_a :
    divide_line lineA 5 4 true = none := by decide

/-- C7 fails on the code for the same reason as C5: no width-bounded rows are
produced because `divide_line` raises `IndexError` on any line containing a
word.  Evaluation at the failing input `"ab cd"`, width 1. -/
theorem C7_divide_line_raises_on_words :
    divide_line lineWords 1 4 true = none := by decide

/-- C8 fails on the code: on `"I must not fear."` with width 10 the final
chunk is `"fear."` with `end == 16 == len(text)`, and
`cumulative_widths[16]` raises `IndexError` instead of returning the break
before `"fear."`. -/
theorem C8_divide_line_raises_on_fear :
    divide_line lineFear 10 4 true = none := by decide

/-- C9 fails on the code: on a single 50-character word the only chunk has
`end == 50 == len(text)`, and `cumulative_widths[50]` raises `IndexError`
instead of returning the fold offsets 10, 20, 30, 40. -/
theorem C9_divide_line_raises_on_word50 :
    divide_line lineWord50 10 4 true = none := by decide

/-- Witness for C10 at a concrete edit (line 1 of `docHello` edited in
place): the entries above the window are unchanged. -/
theorem C10_witness :
    IsEdit docHello docHello'' 1 1 1
    ∧ (wrap_range brkEvery (wrap brkEvery docHello 4) docHello''
        (((1 : Nat) : Int), 0) (((1 : Nat) : Int), 2) (((1 : Nat) : Int), 2)).wrap_offsets.take 1
      = (wrap brkEvery docHello 4).wrap_offsets.take 1 :=
  ⟨⟨by decide, by decide, by decide, by decide, by decide, by decide, by decide⟩,
    (wrap_range_frame brkEvery 4
      ⟨by decide, by decide, by decide, by decide, by decide, by decide, by decide⟩
      0 2 2).1⟩

end TextualSpec
